import Mathlib

/-!
Verification of the belief-revision kernel (`belief_revision_agent.py`,
`resolution.py`): propositional formulas, CNF conversion, the resolution-based
unsatisfiability test, and priority-weighted partial meet contraction.

The embedding is shallow: Python sets become `Finset`, the ordered
`dict` of the belief base becomes an ordered association list, and the
unbounded `while True` saturation loop of `resolution.py` becomes a
fuel-indexed recursion together with a proved bound on the fuel needed.
-/

namespace BeliefRevision

/-- A literal: an atom name plus a negation flag (`Literal.__init__`). -/
structure Literal where
  name : String
  negated : Bool
deriving DecidableEq

/-- Flip the negation flag (`Literal.negate`). -/
def Literal.negate (l : Literal) : Literal :=
  ⟨l.name, !l.negated⟩

/-- A clause is a set of literals (`Clause.__init__` wraps a Python set). -/
abbrev Clause : Type := Finset Literal

/-- The clause has no literals (`Clause.is_empty`). -/
def Clause.is_empty (c : Clause) : Prop := c = (∅ : Clause)

instance (c : Clause) : Decidable c.is_empty :=
  inferInstanceAs (Decidable (c = (∅ : Clause)))

/-- Some literal occurs together with its negation (`Clause.is_tautology`). -/
def Clause.is_tautology (c : Clause) : Prop :=
  ∃ l ∈ c, l.negate ∈ c

instance (c : Clause) : Decidable c.is_tautology :=
  inferInstanceAs (Decidable (∃ l ∈ c, l.negate ∈ c))

/-- A CNF is a set of clauses (`CNF.__init__` wraps a Python set). -/
abbrev CNF : Type := Finset Clause

/-- Truth of a literal under an assignment of Booleans to atom names. -/
def Literal.holds (v : String → Bool) (l : Literal) : Prop :=
  v l.name = !l.negated

instance (v : String → Bool) (l : Literal) : Decidable (l.holds v) :=
  inferInstanceAs (Decidable (v l.name = !l.negated))

/-- Truth of a clause: some literal of it is true (disjunction). -/
def Clause.holds (v : String → Bool) (c : Clause) : Prop :=
  ∃ l ∈ c, l.holds v

instance (v : String → Bool) (c : Clause) : Decidable (c.holds v) :=
  inferInstanceAs (Decidable (∃ l ∈ c, l.holds v))

/-- Truth of a CNF: every clause of it is true (conjunction). -/
def CNF.holds (v : String → Bool) (s : CNF) : Prop :=
  ∀ c ∈ s, Clause.holds v c

instance (v : String → Bool) (s : CNF) : Decidable (s.holds v) :=
  inferInstanceAs (Decidable (∀ c ∈ s, Clause.holds v c))

/-- The six formula variants of `belief_revision_agent.py`: `Atom`,
`Negation`, `Conjunction`, `Disjunction`, `Implication`, `Biconditional`. -/
inductive Formula : Type where
  | atom (name : String)
  | negation (f : Formula)
  | conjunction (left right : Formula)
  | disjunction (left right : Formula)
  | implication (antecedent consequent : Formula)
  | biconditional (left right : Formula)
deriving DecidableEq

/-- Truth of a formula under an assignment (the intended semantics the
spec evaluates both sides of CNF soundness with). -/
def Formula.holds (v : String → Bool) : Formula → Prop
  | .atom n => v n = true
  | .negation f => ¬ f.holds v
  | .conjunction a b => a.holds v ∧ b.holds v
  | .disjunction a b => a.holds v ∨ b.holds v
  | .implication a b => a.holds v → b.holds v
  | .biconditional a b => (a.holds v ↔ b.holds v)

instance Formula.holds.decide (v : String → Bool) : (f : Formula) → Decidable (f.holds v)
  | .atom n => inferInstanceAs (Decidable (v n = true))
  | .negation f =>
      have := Formula.holds.decide v f
      inferInstanceAs (Decidable (¬ f.holds v))
  | .conjunction a b =>
      have := Formula.holds.decide v a
      have := Formula.holds.decide v b
      inferInstanceAs (Decidable (a.holds v ∧ b.holds v))
  | .disjunction a b =>
      have := Formula.holds.decide v a
      have := Formula.holds.decide v b
      inferInstanceAs (Decidable (a.holds v ∨ b.holds v))
  | .implication a b =>
      have := Formula.holds.decide v a
      have := Formula.holds.decide v b
      inferInstanceAs (Decidable (a.holds v → b.holds v))
  | .biconditional a b =>
      have := Formula.holds.decide v a
      have := Formula.holds.decide v b
      inferInstanceAs (Decidable (a.holds v ↔ b.holds v))

/-- The `__eq__` relation of the formula classes: structural equality,
commutative on `Conjunction`, `Disjunction` and `Biconditional`
(each of those compares `(left,right)` against both orientations of the
other pair), order-sensitive on `Implication`, and `False` across
different variants. -/
def feq : Formula → Formula → Bool
  | .atom n, .atom m => n = m
  | .negation f, .negation g => feq f g
  | .conjunction a b, .conjunction c d => (feq a c && feq b d) || (feq a d && feq b c)
  | .disjunction a b, .disjunction c d => (feq a c && feq b d) || (feq a d && feq b c)
  | .implication a b, .implication c d => feq a c && feq b d
  | .biconditional a b, .biconditional c d => (feq a c && feq b d) || (feq a d && feq b c)
  | _, _ => false

/-- The distributive step of `Disjunction.to_cnf`: for every clause of the
left CNF and every clause of the right CNF emit the union of their literal
sets, skipping unions that are tautologies. -/
def distribute (A B : CNF) : CNF :=
  ((A ×ˢ B).image (fun p => p.1 ∪ p.2)).filter (fun c => ¬ c.is_tautology)

/-- CNF of a formula and of its negation, computed together.  The first
component follows `Atom.to_cnf`, `Conjunction.to_cnf`, `Disjunction.to_cnf`,
`Implication.to_cnf` and `Biconditional.to_cnf`; the second component
follows the case analysis inside `Negation.to_cnf` (negated atom, double
negation, the two De Morgan rules, negated implication and negated
biconditional), with the recursive `to_cnf` calls those methods make on
freshly built formulas unfolded one step so that the recursion is
structural.  The source-shaped equations are restated below as lemmas. -/
def toCnfPair : Formula → CNF × CNF
  | .atom n => ({ { ⟨n, false⟩ } }, { { ⟨n, true⟩ } })
  | .negation f => ((toCnfPair f).2, (toCnfPair f).1)
  | .conjunction a b =>
      ((toCnfPair a).1 ∪ (toCnfPair b).1,
       distribute (toCnfPair a).2 (toCnfPair b).2)
  | .disjunction a b =>
      (distribute (toCnfPair a).1 (toCnfPair b).1,
       (toCnfPair a).2 ∪ (toCnfPair b).2)
  | .implication a b =>
      (distribute (toCnfPair a).2 (toCnfPair b).1,
       (toCnfPair a).1 ∪ (toCnfPair b).2)
  | .biconditional a b =>
      (distribute (toCnfPair a).2 (toCnfPair b).1 ∪ distribute (toCnfPair b).2 (toCnfPair a).1,
       distribute ((toCnfPair a).1 ∪ (toCnfPair b).2) ((toCnfPair a).2 ∪ (toCnfPair b).1))

/-- CNF conversion of a formula (`Formula.to_cnf` dispatch). -/
def Formula.to_cnf (f : Formula) : CNF := (toCnfPair f).1

/-- `Atom.to_cnf`: one clause holding the positive literal. -/
theorem to_cnf_atom (n : String) :
    (Formula.atom n).to_cnf = { { (⟨n, false⟩ : Literal) } } := rfl

/-- `Negation.to_cnf` on an atom: one clause holding the negative literal. -/
theorem to_cnf_neg_atom (n : String) :
    (Formula.negation (Formula.atom n)).to_cnf = { { (⟨n, true⟩ : Literal) } } := rfl

/-- `Negation.to_cnf` double-negation elimination. -/
theorem to_cnf_neg_neg (f : Formula) :
    (Formula.negation (Formula.negation f)).to_cnf = f.to_cnf := rfl

/-- `Negation.to_cnf` De Morgan on a conjunction. -/
theorem to_cnf_neg_conj (a b : Formula) :
    (Formula.negation (Formula.conjunction a b)).to_cnf
      = (Formula.disjunction (Formula.negation a) (Formula.negation b)).to_cnf := rfl

/-- `Negation.to_cnf` De Morgan on a disjunction. -/
theorem to_cnf_neg_disj (a b : Formula) :
    (Formula.negation (Formula.disjunction a b)).to_cnf
      = (Formula.conjunction (Formula.negation a) (Formula.negation b)).to_cnf := rfl

/-- `Negation.to_cnf` on an implication. -/
theorem to_cnf_neg_impl (a b : Formula) :
    (Formula.negation (Formula.implication a b)).to_cnf
      = (Formula.conjunction a (Formula.negation b)).to_cnf := rfl

/-- `Negation.to_cnf` on a biconditional. -/
theorem to_cnf_neg_bicond (a b : Formula) :
    (Formula.negation (Formula.biconditional a b)).to_cnf
      = (Formula.disjunction (Formula.conjunction a (Formula.negation b))
          (Formula.conjunction (Formula.negation a) b)).to_cnf := rfl

/-- `Conjunction.to_cnf`: union of the clause sets of the two sides. -/
theorem to_cnf_conj (a b : Formula) :
    (Formula.conjunction a b).to_cnf = a.to_cnf ∪ b.to_cnf := rfl

/-- `Disjunction.to_cnf`: pairwise distribution with tautology filtering. -/
theorem to_cnf_disj (a b : Formula) :
    (Formula.disjunction a b).to_cnf = distribute a.to_cnf b.to_cnf := rfl

/-- `Implication.to_cnf`: rewrite `a → b` as `¬a ∨ b`. -/
theorem to_cnf_impl (a b : Formula) :
    (Formula.implication a b).to_cnf
      = (Formula.disjunction (Formula.negation a) b).to_cnf := rfl

/-- `Biconditional.to_cnf`: rewrite `a ↔ b` as `(a → b) ∧ (b → a)`. -/
theorem to_cnf_bicond (a b : Formula) :
    (Formula.biconditional a b).to_cnf
      = (Formula.conjunction (Formula.implication a b) (Formula.implication b a)).to_cnf := rfl

/-- All resolvents of two clauses (`resolve` in `resolution.py`): for every
pair of literals with the same name and opposite polarity, one from each
clause, the clause holding all remaining literals of both, tautological
resolvents skipped. -/
def resolve (c1 c2 : Clause) : Finset Clause :=
  (((c1 ×ˢ c2).filter (fun p => p.1.name = p.2.name ∧ p.1.negated ≠ p.2.negated)).image
      (fun p => (c1.erase p.1) ∪ (c2.erase p.2))).filter
    (fun r => ¬ r.is_tautology)

/-- One round of the saturation loop: resolvents of every pair of one
accumulated clause and one distinct frontier clause (the `pairs`
comprehension with its `c1 != c2` guard). -/
def resolventsOf (clauses frontier : Finset Clause) : Finset Clause :=
  clauses.biUnion (fun c1 => (frontier.erase c1).biUnion (fun c2 => resolve c1 c2))

/-- All literals occurring in a clause set. -/
def litsOf (S : Finset Clause) : Finset Literal := S.biUnion id

/-- All atom names occurring in a clause set. -/
def atomsOf (S : Finset Clause) : Finset String := (litsOf S).image Literal.name

/-- The `while True` saturation loop of `resolution`, indexed by fuel: each
round derives all resolvents of accumulated-vs-frontier pairs, answers
`true` on an empty resolvent, answers `false` when no previously unseen
clause was produced, and otherwise recurs with the new clauses merged in.
`none` means the fuel ran out; `fuelFor` below is proved sufficient. -/
def resolutionFuel : Nat → Finset Clause → Finset Clause → Option Bool
  | 0, _, _ => none
  | n + 1, clauses, frontier =>
      let R := resolventsOf clauses frontier
      if (∅ : Clause) ∈ R then some true
      else
        let newC := R \ clauses
        if newC = ∅ then some false
        else resolutionFuel n (clauses ∪ newC) newC

/-- Enough fuel for the loop: one round per clause the accumulator can ever
grow by, i.e. the number of distinct clauses over the input literals. -/
def fuelFor (clauses : Finset Clause) : Nat := 2 ^ (litsOf clauses).card + 1

/-- The resolution entry point (`resolution`, the spec's
`is_unsatisfiable`): `true` iff the loop derives the empty clause. -/
def resolution (clauses : Finset Clause) : Bool :=
  (resolutionFuel (fuelFor clauses) clauses clauses).getD false

/-- A clause set is satisfiable when some assignment makes every clause
true. -/
def satisfiable (S : Finset Clause) : Prop := ∃ v, CNF.holds v S

/-- The final accumulator is closed under resolution of distinct clauses. -/
def Saturated (S : Finset Clause) : Prop :=
  ∀ a ∈ S, ∀ b ∈ S, a ≠ b → resolve a b ⊆ S

/-- The clause pool of a belief collection (`BeliefBase.entails` unions the
CNF clauses of every current belief).  The belief base itself is embedded
as the association list of its `formula → priority` dictionary in
insertion order. -/
def clausesOf (beliefs : List (Formula × Int)) : Finset Clause :=
  beliefs.foldr (fun fp acc => fp.1.to_cnf ∪ acc) ∅

/-- `BeliefBase.entails`: the pooled belief clauses together with the
clauses of the negated query go through the resolution engine. -/
def entails (beliefs : List (Formula × Int)) (formula : Formula) : Bool :=
  resolution (clausesOf beliefs ∪ (Formula.negation formula).to_cnf)

/-- The subset of the belief entries selected by the bits of `i`
(`(i >> j) & 1` in `_find_maximal_non_entailing_subsets`). -/
def maskSelect (i : Nat) (l : List (Formula × Int)) : List (Formula × Int) :=
  (l.enum.filter (fun jp => i.testBit jp.1)).map Prod.snd

/-- All `2^n` subsets of the belief entries, in the order the `range(2**n)`
loop generates them. -/
def allSubsets (l : List (Formula × Int)) : List (List (Formula × Int)) :=
  (List.range (2 ^ l.length)).map (fun i => maskSelect i l)

/-- `set(subset1.keys()).issubset(set(subset2.keys()))`, with key equality
the `__eq__` of formulas (`feq`). -/
def keysSubsetFeq (s1 s2 : List (Formula × Int)) : Bool :=
  s1.all (fun p => s2.any (fun q => feq p.1 q.1))

/-- Python dict equality on two belief subsets: same keys under `feq`, with
equal priorities. -/
def dictEq (s1 s2 : List (Formula × Int)) : Bool :=
  s1.all (fun p => s2.any (fun q => feq p.1 q.1 && decide (p.2 = q.2))) &&
    s2.all (fun q => s1.any (fun p => feq p.1 q.1 && decide (p.2 = q.2)))

/-- The subsets that do not entail the formula, in enumeration order
(the first filtering pass of `_find_maximal_non_entailing_subsets`). -/
def nonEntailingSubsets (beliefs : List (Formula × Int)) (formula : Formula) :
    List (List (Formula × Int)) :=
  (allSubsets beliefs).filter (fun s => !(entails s formula))

/-- The maximal non-entailing subsets: a retained subset is kept unless
some other retained subset (unequal as a dict) contains all its keys
(the second pass of `_find_maximal_non_entailing_subsets`). -/
def maximalNonEntailingSubsets (beliefs : List (Formula × Int)) (formula : Formula) :
    List (List (Formula × Int)) :=
  (nonEntailingSubsets beliefs formula).filter (fun s1 =>
    !((nonEntailingSubsets beliefs formula).any (fun s2 =>
      !(dictEq s1 s2) && keysSubsetFeq s1 s2)))

/-- Priority sum of a subset (`_select_best_subset`'s score). -/
def score (s : List (Formula × Int)) : Int := (s.map Prod.snd).sum

/-- `_select_best_subset`: stable-sort the subsets by score in descending
order and take the first, i.e. the earliest subset attaining the maximal
score; on the empty list return the empty dict. -/
def selectBestSubset (subsets : List (List (Formula × Int))) : List (Formula × Int) :=
  match subsets with
  | [] => []
  | s :: rest => rest.foldl (fun best t => if score t > score best then t else best) s

/-- `BeliefBase.contract`: no-op when the formula is not entailed
(vacuity) or when no maximal non-entailing subset exists; otherwise the
belief collection is replaced by the best-scoring maximal subset. -/
def contract (beliefs : List (Formula × Int)) (formula : Formula) : List (Formula × Int) :=
  if entails beliefs formula = false then beliefs
  else
    if maximalNonEntailingSubsets beliefs formula = [] then beliefs
    else selectBestSubset (maximalNonEntailingSubsets beliefs formula)

/-- The belief base of the spec's first concrete scenario:
`p → q` with priority 2, then `p` with priority 1. -/
def exampleBase : List (Formula × Int) :=
  [(Formula.implication (Formula.atom "p") (Formula.atom "q"), 2),
   (Formula.atom "p", 1)]

theorem Clause.holds_of_subset {v : String → Bool} {c d : Clause} (hsub : c ⊆ d)
    (h : c.holds v) : d.holds v := by
  obtain ⟨l, hl, hlv⟩ := h
  exact ⟨l, hsub hl, hlv⟩

theorem Clause.holds_union {v : String → Bool} {c d : Clause} :
    (c ∪ d).holds v ↔ c.holds v ∨ d.holds v := by
  simp [Clause.holds, Finset.mem_union, or_and_right, exists_or]

theorem Clause.holds_of_tautology {v : String → Bool} {c : Clause}
    (h : c.is_tautology) : c.holds v := by
  obtain ⟨l, hl, hneg⟩ := h
  by_cases hv : v l.name = !l.negated
  · exact ⟨l, hl, hv⟩
  · refine ⟨l.negate, hneg, ?_⟩
    simp only [Literal.holds, Literal.negate, Bool.not_not]
    cases hn : l.negated <;> cases hb : v l.name <;> simp_all [Literal.holds]

theorem cnf_holds_union {v : String → Bool} {A B : CNF} :
    (A ∪ B).holds v ↔ A.holds v ∧ B.holds v := by
  simp [CNF.holds, Finset.mem_union, or_imp, forall_and]

theorem mem_distribute {A B : CNF} {c : Clause} :
    c ∈ distribute A B ↔ (∃ c1 ∈ A, ∃ c2 ∈ B, c1 ∪ c2 = c) ∧ ¬ c.is_tautology := by
  simp [distribute, Finset.mem_filter, Finset.mem_image, Finset.mem_product]
  tauto

theorem distribute_no_tautology {A B : CNF} {c : Clause} (h : c ∈ distribute A B) :
    ¬ c.is_tautology :=
  (mem_distribute.mp h).2

theorem distribute_holds {v : String → Bool} {A B : CNF} :
    (distribute A B).holds v ↔ A.holds v ∨ B.holds v := by
  constructor
  · intro h
    by_contra hcon
    push_neg at hcon
    obtain ⟨hA, hB⟩ := hcon
    simp only [CNF.holds, not_forall] at hA hB
    obtain ⟨c1, hc1, hc1v⟩ := hA
    obtain ⟨c2, hc2, hc2v⟩ := hB
    have hnot : ¬ (c1 ∪ c2).holds v := by
      rw [Clause.holds_union]
      tauto
    have hmem : c1 ∪ c2 ∈ distribute A B := by
      rw [mem_distribute]
      exact ⟨⟨c1, hc1, c2, hc2, rfl⟩, fun ht => hnot (Clause.holds_of_tautology ht)⟩
    exact hnot (h _ hmem)
  · intro h c hc
    obtain ⟨⟨c1, hc1, c2, hc2, hunion⟩, _⟩ := mem_distribute.mp hc
    subst hunion
    rcases h with h | h
    · exact Clause.holds_of_subset Finset.subset_union_left (h c1 hc1)
    · exact Clause.holds_of_subset Finset.subset_union_right (h c2 hc2)

theorem toCnfPair_sound (v : String → Bool) (f : Formula) :
    ((toCnfPair f).1.holds v ↔ f.holds v) ∧ ((toCnfPair f).2.holds v ↔ ¬ f.holds v) := by
  induction f with
  | atom n =>
      simp [toCnfPair, Formula.holds, CNF.holds, Clause.holds, Literal.holds]
  | negation f ih =>
      simp only [toCnfPair, Formula.holds]
      exact ⟨ih.2, by rw [ih.1]; tauto⟩
  | conjunction a b iha ihb =>
      simp only [toCnfPair, Formula.holds, cnf_holds_union, distribute_holds,
        iha.1, iha.2, ihb.1, ihb.2]
      tauto
  | disjunction a b iha ihb =>
      simp only [toCnfPair, Formula.holds, cnf_holds_union, distribute_holds,
        iha.1, iha.2, ihb.1, ihb.2]
      tauto
  | implication a b iha ihb =>
      simp only [toCnfPair, Formula.holds, cnf_holds_union, distribute_holds,
        iha.1, iha.2, ihb.1, ihb.2]
      constructor <;> constructor <;> intro <;> tauto
  | biconditional a b iha ihb =>
      simp only [toCnfPair, Formula.holds, cnf_holds_union, distribute_holds,
        iha.1, iha.2, ihb.1, ihb.2]
      constructor <;> constructor <;> intro <;> tauto

/-- C1: CNF conversion is sound and total: for every formula built from the
six variants and every truth assignment to the atoms, the formula and its
`to_cnf` translation evaluate to the same truth value. -/
theorem to_cnf_sound (f : Formula) (v : String → Bool) :
    f.to_cnf.holds v ↔ f.holds v :=
  (toCnfPair_sound v f).1

theorem toCnfPair_no_tautology (f : Formula) :
    (∀ c ∈ (toCnfPair f).1, ¬ c.is_tautology) ∧
      (∀ c ∈ (toCnfPair f).2, ¬ c.is_tautology) := by
  induction f with
  | atom n =>
      constructor <;>
        · intro c hc
          simp only [toCnfPair, Finset.mem_singleton] at hc
          subst hc
          simp [Clause.is_tautology, Literal.negate]
  | negation f ih =>
      exact ⟨ih.2, ih.1⟩
  | conjunction a b iha ihb =>
      refine ⟨?_, fun c hc => distribute_no_tautology hc⟩
      intro c hc
      rcases Finset.mem_union.mp hc with h | h
      · exact iha.1 c h
      · exact ihb.1 c h
  | disjunction a b iha ihb =>
      refine ⟨fun c hc => distribute_no_tautology hc, ?_⟩
      intro c hc
      rcases Finset.mem_union.mp hc with h | h
      · exact iha.2 c h
      · exact ihb.2 c h
  | implication a b iha ihb =>
      refine ⟨fun c hc => distribute_no_tautology hc, ?_⟩
      intro c hc
      rcases Finset.mem_union.mp hc with h | h
      · exact iha.1 c h
      · exact ihb.2 c h
  | biconditional a b iha ihb =>
      refine ⟨?_, fun c hc => distribute_no_tautology hc⟩
      intro c hc
      rcases Finset.mem_union.mp hc with h | h
      · exact distribute_no_tautology h
      · exact distribute_no_tautology h

/-- C8: tautology filtering invariant: no clause of `to_cnf f` contains both
a literal and its negation. -/
theorem to_cnf_no_tautology (f : Formula) :
    ∀ c ∈ f.to_cnf, ¬ c.is_tautology :=
  (toCnfPair_no_tautology f).1

/-- Witness for C8 at a concrete clause of a concrete conversion. -/
theorem to_cnf_no_tautology_witness :
    ({ (⟨"p", true⟩ : Literal) } : Clause) ∈ (Formula.negation (Formula.atom "p")).to_cnf ∧
      ¬ Clause.is_tautology { (⟨"p", true⟩ : Literal) } :=
  ⟨by decide, to_cnf_no_tautology (Formula.negation (Formula.atom "p")) _ (by decide)⟩

theorem feq_refl (f : Formula) : feq f f = true := by
  induction f with
  | atom n => simp [feq]
  | negation f ih => simp [feq, ih]
  | conjunction a b iha ihb => simp [feq, iha, ihb]
  | disjunction a b iha ihb => simp [feq, iha, ihb]
  | implication a b iha ihb => simp [feq, iha, ihb]
  | biconditional a b iha ihb => simp [feq, iha, ihb]

theorem feq_symm (f g : Formula) : feq f g = feq g f := by
  induction f generalizing g with
  | atom n => cases g <;> simp [feq, eq_comm]
  | negation f ih => cases g <;> simp [feq, ih]
  | conjunction a b iha ihb =>
      cases g <;> simp [feq, iha, ihb, Bool.and_comm, Bool.or_comm]
  | disjunction a b iha ihb =>
      cases g <;> simp [feq, iha, ihb, Bool.and_comm, Bool.or_comm]
  | implication a b iha ihb => cases g <;> simp [feq, iha, ihb]
  | biconditional a b iha ihb =>
      cases g <;> simp [feq, iha, ihb, Bool.and_comm, Bool.or_comm]

/-- C7: formula equality is commutative exactly for the symmetric
connectives: `Conjunction`, `Disjunction` and `Biconditional` compare
equal under swapped arguments, while swapped `Implication`s compare equal
precisely when the two arguments compare equal to each other. -/
theorem feq_commutative (A B : Formula) :
    feq (Formula.conjunction A B) (Formula.conjunction B A) = true ∧
    feq (Formula.disjunction A B) (Formula.disjunction B A) = true ∧
    feq (Formula.biconditional A B) (Formula.biconditional B A) = true ∧
    (feq (Formula.implication A B) (Formula.implication B A) = true ↔ feq A B = true) := by
  refine ⟨by simp [feq, feq_refl], by simp [feq, feq_refl], by simp [feq, feq_refl], ?_⟩
  have h : feq (Formula.implication A B) (Formula.implication B A)
      = (feq A B && feq B A) := rfl
  rw [h, show feq B A = feq A B from feq_symm B A]
  simp

theorem mem_resolve {c1 c2 r : Clause} :
    r ∈ resolve c1 c2 ↔
      (∃ l1 ∈ c1, ∃ l2 ∈ c2, l1.name = l2.name ∧ l1.negated ≠ l2.negated ∧
        (c1.erase l1) ∪ (c2.erase l2) = r) ∧ ¬ r.is_tautology := by
  simp only [resolve, Finset.mem_filter, Finset.mem_image, Finset.mem_product]
  constructor
  · rintro ⟨⟨⟨l1, l2⟩, ⟨⟨h1, h2⟩, hname, hneg⟩, hr⟩, htaut⟩
    exact ⟨⟨l1, h1, l2, h2, hname, hneg, hr⟩, htaut⟩
  · rintro ⟨⟨l1, h1, l2, h2, hname, hneg, hr⟩, htaut⟩
    exact ⟨⟨⟨l1, l2⟩, ⟨⟨h1, h2⟩, hname, hneg⟩, hr⟩, htaut⟩

theorem resolve_subset {c1 c2 r : Clause} (hr : r ∈ resolve c1 c2) : r ⊆ c1 ∪ c2 := by
  obtain ⟨⟨l1, _, l2, _, _, _, hunion⟩, _⟩ := mem_resolve.mp hr
  rw [← hunion]
  exact Finset.union_subset_union (Finset.erase_subset _ _) (Finset.erase_subset _ _)

theorem resolve_comm (c1 c2 : Clause) : resolve c1 c2 = resolve c2 c1 := by
  ext r
  rw [mem_resolve, mem_resolve]
  constructor
  · rintro ⟨⟨l1, h1, l2, h2, hname, hneg, hr⟩, htaut⟩
    exact ⟨⟨l2, h2, l1, h1, hname.symm, fun e => hneg e.symm,
      by rw [Finset.union_comm]; exact hr⟩, htaut⟩
  · rintro ⟨⟨l2, h2, l1, h1, hname, hneg, hr⟩, htaut⟩
    exact ⟨⟨l1, h1, l2, h2, hname.symm, fun e => hneg e.symm,
      by rw [Finset.union_comm]; exact hr⟩, htaut⟩

theorem resolve_sound {v : String → Bool} {c1 c2 r : Clause} (hr : r ∈ resolve c1 c2)
    (h1 : c1.holds v) (h2 : c2.holds v) : r.holds v := by
  obtain ⟨⟨l1, hl1, l2, hl2, hname, hneg, hunion⟩, _⟩ := mem_resolve.mp hr
  obtain ⟨m, hm, hmv⟩ := h1
  by_cases hm1 : m = l1
  · subst hm1
    obtain ⟨m2, hm2, hm2v⟩ := h2
    have hne2 : m2 ≠ l2 := by
      intro he
      subst he
      rw [Literal.holds] at hmv hm2v
      rw [← hname, hmv] at hm2v
      exact hneg (Bool.not_inj hm2v)
    refine ⟨m2, ?_, hm2v⟩
    rw [← hunion]
    exact Finset.mem_union_right _ (Finset.mem_erase.mpr ⟨hne2, hm2⟩)
  · refine ⟨m, ?_, hmv⟩
    rw [← hunion]
    exact Finset.mem_union_left _ (Finset.mem_erase.mpr ⟨hm1, hm⟩)

theorem mem_litsOf {l : Literal} {S : Finset Clause} :
    l ∈ litsOf S ↔ ∃ c ∈ S, l ∈ c := by
  simp [litsOf]

theorem subset_litsOf {c : Clause} {S : Finset Clause} (h : c ∈ S) : c ⊆ litsOf S :=
  fun _l hl => mem_litsOf.mpr ⟨c, h, hl⟩

theorem card_le_pow_litsOf (S : Finset Clause) : S.card ≤ 2 ^ (litsOf S).card := by
  have h : S ⊆ (litsOf S).powerset := fun c hc => Finset.mem_powerset.mpr (subset_litsOf hc)
  calc S.card ≤ (litsOf S).powerset.card := Finset.card_le_card h
    _ = 2 ^ (litsOf S).card := Finset.card_powerset _

theorem mem_resolventsOf {clauses frontier : Finset Clause} {r : Clause} :
    r ∈ resolventsOf clauses frontier ↔
      ∃ c1 ∈ clauses, ∃ c2 ∈ frontier, c1 ≠ c2 ∧ r ∈ resolve c1 c2 := by
  simp only [resolventsOf, Finset.mem_biUnion, Finset.mem_erase]
  constructor
  · rintro ⟨c1, hc1, c2, ⟨hne, hc2⟩, hr⟩
    exact ⟨c1, hc1, c2, hc2, fun e => hne e.symm, hr⟩
  · rintro ⟨c1, hc1, c2, hc2, hne, hr⟩
    exact ⟨c1, hc1, c2, ⟨fun e => hne e.symm, hc2⟩, hr⟩

theorem resolventsOf_lits {clauses frontier : Finset Clause} (hsub : frontier ⊆ clauses)
    {r : Clause} (hr : r ∈ resolventsOf clauses frontier) : r ⊆ litsOf clauses := by
  obtain ⟨c1, hc1, c2, hc2, _, hres⟩ := mem_resolventsOf.mp hr
  intro l hl
  rcases Finset.mem_union.mp (resolve_subset hres hl) with h | h
  · exact subset_litsOf hc1 h
  · exact subset_litsOf (hsub hc2) h

theorem resolutionFuel_isSome :
    ∀ (n : Nat) (clauses frontier : Finset Clause), frontier ⊆ clauses →
      2 ^ (litsOf clauses).card + 1 - clauses.card ≤ n →
      (resolutionFuel n clauses frontier).isSome = true := by
  intro n
  induction n with
  | zero =>
      intro clauses frontier _ hle
      have := card_le_pow_litsOf clauses
      omega
  | succ n ih =>
      intro clauses frontier hsub hle
      rw [resolutionFuel]
      by_cases hR : (∅ : Clause) ∈ resolventsOf clauses frontier
      · simp [hR]
      · simp only [if_neg hR]
        by_cases hempty : resolventsOf clauses frontier \ clauses = ∅
        · simp [hempty]
        · simp only [if_neg hempty]
          apply ih _ _ Finset.subset_union_right
          have hdisj : Disjoint clauses (resolventsOf clauses frontier \ clauses) :=
            Finset.sdiff_disjoint.symm
          have hcard : (clauses ∪ (resolventsOf clauses frontier \ clauses)).card
              = clauses.card + (resolventsOf clauses frontier \ clauses).card :=
            Finset.card_union_of_disjoint hdisj
          have hpos : 0 < (resolventsOf clauses frontier \ clauses).card :=
            Finset.card_pos.mpr (Finset.nonempty_iff_ne_empty.mpr hempty)
          have hlits : litsOf (clauses ∪ (resolventsOf clauses frontier \ clauses))
              ⊆ litsOf clauses := by
            intro l hl
            obtain ⟨c, hc, hlc⟩ := mem_litsOf.mp hl
            rcases Finset.mem_union.mp hc with h | h
            · exact subset_litsOf h hlc
            · exact resolventsOf_lits hsub (Finset.mem_sdiff.mp h).1 hlc
          have hpow : 2 ^ (litsOf (clauses ∪ (resolventsOf clauses frontier \ clauses))).card
              ≤ 2 ^ (litsOf clauses).card :=
            Nat.pow_le_pow_right (by norm_num) (Finset.card_le_card hlits)
          omega

/-- C5: the saturation loop terminates on every finite input clause set:
with the proved fuel bound (one round per clause expressible over the
finite input vocabulary, plus one) the fuel-indexed loop always reaches an
answer rather than running out. -/
theorem resolution_terminates (S : Finset Clause) :
    (resolutionFuel (fuelFor S) S S).isSome = true :=
  resolutionFuel_isSome (fuelFor S) S S (subset_refl S) (Nat.sub_le _ _)

theorem resolutionFuel_true_unsat :
    ∀ (n : Nat) {clauses frontier : Finset Clause}, frontier ⊆ clauses →
      resolutionFuel n clauses frontier = some true → ¬ satisfiable clauses := by
  intro n
  induction n with
  | zero =>
      intro clauses frontier _ heq
      simp [resolutionFuel] at heq
  | succ n ih =>
      intro clauses frontier hsub heq
      rw [resolutionFuel] at heq
      by_cases hR : (∅ : Clause) ∈ resolventsOf clauses frontier
      · obtain ⟨c1, hc1, c2, hc2, _, hres⟩ := mem_resolventsOf.mp hR
        rintro ⟨v, hv⟩
        obtain ⟨l, hl, _⟩ := resolve_sound hres (hv c1 hc1) (hv c2 (hsub hc2))
        exact Finset.not_mem_empty l hl
      · simp only [if_neg hR] at heq
        by_cases hempty : resolventsOf clauses frontier \ clauses = ∅
        · simp [hempty] at heq
        · simp only [if_neg hempty] at heq
          rintro ⟨v, hv⟩
          refine ih Finset.subset_union_right heq ⟨v, ?_⟩
          intro c hc
          rcases Finset.mem_union.mp hc with h | h
          · exact hv c h
          · obtain ⟨c1, hc1, c2, hc2, _, hres⟩ :=
              mem_resolventsOf.mp (Finset.mem_sdiff.mp h).1
            exact resolve_sound hres (hv c1 hc1) (hv c2 (hsub hc2))

theorem Clause.holds_congr {v1 v2 : String → Bool} {c : Clause}
    (h : ∀ l ∈ c, v1 l.name = v2 l.name) : c.holds v1 ↔ c.holds v2 := by
  unfold Clause.holds Literal.holds
  constructor
  · rintro ⟨l, hl, hv⟩
    exact ⟨l, hl, by rw [← h l hl]; exact hv⟩
  · rintro ⟨l, hl, hv⟩
    exact ⟨l, hl, by rw [h l hl]; exact hv⟩

theorem exists_failing_clause {S : Finset Clause} {v : String → Bool} {p : String} (b : Bool)
    (hv : CNF.holds v (S.filter (fun c => ∀ l ∈ c, l.name ≠ p)))
    (hfail : ¬ CNF.holds (fun n => if n = p then b else v n) S) :
    ∃ c ∈ S, (⟨p, b⟩ : Literal) ∈ c ∧ (⟨p, !b⟩ : Literal) ∉ c ∧
      ∀ l ∈ c.erase ⟨p, b⟩, l.name ≠ p ∧ ¬ l.holds v := by
  rw [CNF.holds] at hfail
  push_neg at hfail
  obtain ⟨c, hc, hcv⟩ := hfail
  have hnames : ¬ ∀ l ∈ c, l.name ≠ p := by
    intro hall
    have hcT : c ∈ S.filter (fun c => ∀ l ∈ c, l.name ≠ p) :=
      Finset.mem_filter.mpr ⟨hc, hall⟩
    apply hcv
    refine (Clause.holds_congr ?_).mp (hv c hcT)
    intro l hl
    simp [if_neg (hall l hl)]
  push_neg at hnames
  obtain ⟨l0, hl0, hl0p⟩ := hnames
  have hnotb : (⟨p, !b⟩ : Literal) ∉ c := by
    intro hmem
    exact hcv ⟨⟨p, !b⟩, hmem, by simp [Literal.holds]⟩
  have hb : (⟨p, b⟩ : Literal) ∈ c := by
    have hl0eq : l0 = (⟨p, b⟩ : Literal) := by
      by_cases hnb : l0.negated = b
      · cases l0
        simp_all
      · have : l0.negated = !b := by cases b <;> simp_all
        have : l0 = (⟨p, !b⟩ : Literal) := by cases l0; simp_all
        exact absurd (this ▸ hl0) hnotb
    exact hl0eq ▸ hl0
  refine ⟨c, hc, hb, hnotb, ?_⟩
  intro l hl
  obtain ⟨hlne, hlc⟩ := Finset.mem_erase.mp hl
  have hlname : l.name ≠ p := by
    intro he
    by_cases hnb : l.negated = b
    · exact hlne (by cases l; simp_all)
    · have : l.negated = !b := by cases b <;> simp_all
      have : l = (⟨p, !b⟩ : Literal) := by cases l; simp_all
      exact hnotb (this ▸ hlc)
  refine ⟨hlname, ?_⟩
  intro hlv
  apply hcv
  refine ⟨l, hlc, ?_⟩
  rw [Literal.holds] at hlv ⊢
  simpa [if_neg hlname] using hlv

theorem saturated_sat_aux :
    ∀ (k : Nat) (S : Finset Clause), (atomsOf S).card ≤ k → Saturated S →
      (∅ : Clause) ∉ S → satisfiable S := by
  intro k
  induction k with
  | zero =>
      intro S hcard hsat hne
      have hS : S = ∅ := by
        by_contra hne2
        obtain ⟨c, hc⟩ := Finset.nonempty_iff_ne_empty.mpr hne2
        have hcne : c ≠ (∅ : Clause) := fun e => hne (e ▸ hc)
        obtain ⟨l, hl⟩ := Finset.nonempty_iff_ne_empty.mpr hcne
        have hmem : l.name ∈ atomsOf S :=
          Finset.mem_image.mpr ⟨l, mem_litsOf.mpr ⟨c, hc, hl⟩, rfl⟩
        have : (atomsOf S).card = 0 := Nat.le_zero.mp hcard
        rw [Finset.card_eq_zero] at this
        rw [this] at hmem
        exact Finset.not_mem_empty _ hmem
      exact ⟨fun _ => true, by rw [hS]; intro c hc; exact absurd hc (Finset.not_mem_empty c)⟩
  | succ k ih =>
      intro S hcard hsat hne
      by_cases hsmall : (atomsOf S).card ≤ k
      · exact ih S hsmall hsat hne
      · have hpos : 0 < (atomsOf S).card := by omega
        obtain ⟨p, hp⟩ := Finset.card_pos.mp hpos
        have hTsub : S.filter (fun c => ∀ l ∈ c, l.name ≠ p) ⊆ S := Finset.filter_subset _ _
        have hTsat : Saturated (S.filter (fun c => ∀ l ∈ c, l.name ≠ p)) := by
          intro a ha b hb hab r hr
          have hrS : r ∈ S := hsat a (hTsub ha) b (hTsub hb) hab hr
          rw [Finset.mem_filter]
          refine ⟨hrS, ?_⟩
          intro l hl
          rcases Finset.mem_union.mp (resolve_subset hr hl) with h | h
          · exact (Finset.mem_filter.mp ha).2 l h
          · exact (Finset.mem_filter.mp hb).2 l h
        have hTne : (∅ : Clause) ∉ S.filter (fun c => ∀ l ∈ c, l.name ≠ p) :=
          fun h => hne (hTsub h)
        have hTatoms : atomsOf (S.filter (fun c => ∀ l ∈ c, l.name ≠ p))
            ⊆ (atomsOf S).erase p := by
          intro q hq
          obtain ⟨l, hl, hlq⟩ := Finset.mem_image.mp hq
          obtain ⟨c, hc, hlc⟩ := mem_litsOf.mp hl
          refine Finset.mem_erase.mpr ⟨?_, ?_⟩
          · rw [← hlq]
            exact (Finset.mem_filter.mp hc).2 l hlc
          · exact Finset.mem_image.mpr ⟨l, mem_litsOf.mpr ⟨c, hTsub hc, hlc⟩, hlq⟩
        have hTcard : (atomsOf (S.filter (fun c => ∀ l ∈ c, l.name ≠ p))).card ≤ k := by
          have h1 := Finset.card_le_card hTatoms
          have h2 := Finset.card_erase_of_mem hp
          omega
        obtain ⟨v, hv⟩ := ih _ hTcard hTsat hTne
        by_cases hvT : CNF.holds (fun n => if n = p then true else v n) S
        · exact ⟨_, hvT⟩
        by_cases hvF : CNF.holds (fun n => if n = p then false else v n) S
        · exact ⟨_, hvF⟩
        exfalso
        obtain ⟨c, hcS, hcpos, hcneg, hcrest⟩ := exists_failing_clause true hv hvT
        obtain ⟨d, hdS, hdpos, hdneg, hdrest⟩ := exists_failing_clause false hv hvF
        have hcd : c ≠ d := by
          intro he
          subst he
          exact hcneg (by simpa using hdpos)
        have hfalse : ∀ l ∈ (c.erase ⟨p, true⟩) ∪ (d.erase ⟨p, false⟩),
            l.name ≠ p ∧ ¬ l.holds v := by
          intro l hl
          rcases Finset.mem_union.mp hl with h | h
          · exact hcrest l h
          · exact hdrest l h
        have htaut : ¬ Clause.is_tautology ((c.erase ⟨p, true⟩) ∪ (d.erase ⟨p, false⟩)) := by
          intro ht
          obtain ⟨l, hl, hlv⟩ := Clause.holds_of_tautology (v := v) ht
          exact (hfalse l hl).2 hlv
        have hres : (c.erase ⟨p, true⟩) ∪ (d.erase ⟨p, false⟩) ∈ resolve c d := by
          rw [mem_resolve]
          exact ⟨⟨⟨p, true⟩, hcpos, ⟨p, false⟩, by simpa using hdpos, rfl,
            by simp, rfl⟩, htaut⟩
        have hrS : (c.erase ⟨p, true⟩) ∪ (d.erase ⟨p, false⟩) ∈ S :=
          hsat c hcS d hdS hcd hres
        have hrT : (c.erase ⟨p, true⟩) ∪ (d.erase ⟨p, false⟩)
            ∈ S.filter (fun c => ∀ l ∈ c, l.name ≠ p) :=
          Finset.mem_filter.mpr ⟨hrS, fun l hl => (hfalse l hl).1⟩
        obtain ⟨l, hl, hlv⟩ := hv _ hrT
        exact (hfalse l hl).2 hlv

theorem saturated_satisfiable {S : Finset Clause} (hsat : Saturated S)
    (hne : (∅ : Clause) ∉ S) : satisfiable S :=
  saturated_sat_aux (atomsOf S).card S le_rfl hsat hne

theorem resolutionFuel_false_sat :
    ∀ (n : Nat) {clauses frontier : Finset Clause}, frontier ⊆ clauses →
      (∅ : Clause) ∉ clauses →
      (∀ a ∈ clauses, ∀ b ∈ clauses, a ≠ b → a ∉ frontier → b ∉ frontier →
        resolve a b ⊆ clauses) →
      resolutionFuel n clauses frontier = some false → satisfiable clauses := by
  intro n
  induction n with
  | zero =>
      intro clauses frontier _ _ _ heq
      simp [resolutionFuel] at heq
  | succ n ih =>
      intro clauses frontier hsub hne hinv heq
      rw [resolutionFuel] at heq
      by_cases hR : (∅ : Clause) ∈ resolventsOf clauses frontier
      · simp [hR] at heq
      · simp only [if_neg hR] at heq
        have hRsub : ∀ {a b : Clause}, a ∈ clauses → b ∈ frontier → a ≠ b →
            resolve a b ⊆ resolventsOf clauses frontier := by
          intro a b ha hb hab r hr
          exact mem_resolventsOf.mpr ⟨a, ha, b, hb, hab, hr⟩
        by_cases hempty : resolventsOf clauses frontier \ clauses = ∅
        · have hRclauses : resolventsOf clauses frontier ⊆ clauses :=
            Finset.sdiff_eq_empty_iff_subset.mp hempty
          have hsat : Saturated clauses := by
            intro a ha b hb hab
            by_cases hbf : b ∈ frontier
            · exact fun r hr => hRclauses (hRsub ha hbf hab hr)
            · by_cases haf : a ∈ frontier
              · rw [resolve_comm]
                exact fun r hr => hRclauses (hRsub hb haf (Ne.symm hab) hr)
              · exact hinv a ha b hb hab haf hbf
          exact saturated_satisfiable hsat hne
        · simp only [if_neg hempty] at heq
          have hRsub2 : resolventsOf clauses frontier
              ⊆ clauses ∪ (resolventsOf clauses frontier \ clauses) := by
            intro r hr
            by_cases h : r ∈ clauses
            · exact Finset.mem_union_left _ h
            · exact Finset.mem_union_right _ (Finset.mem_sdiff.mpr ⟨hr, h⟩)
          have hne2 : (∅ : Clause) ∉ clauses ∪ (resolventsOf clauses frontier \ clauses) := by
            intro h
            rcases Finset.mem_union.mp h with h | h
            · exact hne h
            · exact hR (Finset.mem_sdiff.mp h).1
          have hinv2 : ∀ a ∈ clauses ∪ (resolventsOf clauses frontier \ clauses),
              ∀ b ∈ clauses ∪ (resolventsOf clauses frontier \ clauses), a ≠ b →
              a ∉ resolventsOf clauses frontier \ clauses →
              b ∉ resolventsOf clauses frontier \ clauses →
              resolve a b ⊆ clauses ∪ (resolventsOf clauses frontier \ clauses) := by
            intro a ha b hb hab hanew hbnew
            have haC : a ∈ clauses := by
              rcases Finset.mem_union.mp ha with h | h
              · exact h
              · exact absurd h hanew
            have hbC : b ∈ clauses := by
              rcases Finset.mem_union.mp hb with h | h
              · exact h
              · exact absurd h hbnew
            by_cases hbf : b ∈ frontier
            · exact fun r hr => hRsub2 (hRsub haC hbf hab hr)
            · by_cases haf : a ∈ frontier
              · rw [resolve_comm]
                exact fun r hr => hRsub2 (hRsub hbC haf (Ne.symm hab) hr)
              · exact fun r hr =>
                  Finset.mem_union_left _ (hinv a haC b hbC hab haf hbf hr)
          obtain ⟨w, hw⟩ := ih Finset.subset_union_right hne2 hinv2 heq
          exact ⟨w, fun c hc => hw c (Finset.mem_union_left _ hc)⟩

/-- The claim C2 as written is false: the input consisting of just the
empty clause is unsatisfiable, yet `resolution` answers `false` on it,
because no pair of distinct clauses exists to resolve. -/
theorem resolution_claim_counterexample :
    resolution {(∅ : Clause)} = false ∧ ¬ satisfiable {(∅ : Clause)} := by
  refine ⟨by decide, ?_⟩
  rintro ⟨v, hv⟩
  obtain ⟨l, hl, _⟩ := hv ∅ (Finset.mem_singleton_self _)
  exact Finset.not_mem_empty l hl

/-- C2 (amended): for every finite set of clauses none of which is the
empty clause, `resolution` returns `true` iff no truth assignment satisfies
every clause of the set. -/
theorem resolution_correct (S : Finset Clause) (hne : (∅ : Clause) ∉ S) :
    resolution S = true ↔ ¬ satisfiable S := by
  have hsome := resolution_terminates S
  rw [resolution]
  cases heq : resolutionFuel (fuelFor S) S S with
  | none => rw [heq] at hsome; simp at hsome
  | some b =>
      cases b with
      | true =>
          simp only [Option.getD_some]
          exact ⟨fun _ => resolutionFuel_true_unsat _ (subset_refl S) heq, fun _ => by trivial⟩
      | false =>
          simp only [Option.getD_some]
          constructor
          · intro h
            exact absurd h (by simp)
          · intro hunsat
            exact absurd
              (resolutionFuel_false_sat _ (subset_refl S) hne
                (fun a _ b _ _ haf _ hbf => absurd haf (by simp_all)) heq)
              hunsat

/-- Witness for C2 (amended) at a concrete unsatisfiable two-clause input. -/
theorem resolution_correct_witness :
    (∅ : Clause) ∉ ({ { (⟨"p", false⟩ : Literal) }, { (⟨"p", true⟩ : Literal) } } : Finset Clause) ∧
      (resolution { { (⟨"p", false⟩ : Literal) }, { (⟨"p", true⟩ : Literal) } } = true ↔
        ¬ satisfiable { { (⟨"p", false⟩ : Literal) }, { (⟨"p", true⟩ : Literal) } }) :=
  ⟨by decide, resolution_correct _ (by decide)⟩

theorem maskSelect_sublist (i : Nat) (l : List (Formula × Int)) :
    (maskSelect i l).Sublist l := by
  have h1 : (l.enum.filter (fun jp => i.testBit jp.1)).Sublist l.enum :=
    List.filter_sublist _
  have h2 := h1.map Prod.snd
  rwa [List.enum_map_snd] at h2

theorem foldl_best_mem :
    ∀ (xs : List (List (Formula × Int))) (x : List (Formula × Int)),
      xs.foldl (fun best t => if score t > score best then t else best) x ∈ x :: xs := by
  intro xs
  induction xs with
  | nil => intro x; exact List.mem_singleton_self x
  | cons y ys ih =>
      intro x
      rw [List.foldl_cons]
      rcases List.mem_cons.mp (ih (if score y > score x then y else x)) with h | h
      · rw [h]
        by_cases hs : score y > score x
        · rw [if_pos hs]
          exact List.mem_cons_of_mem _ (List.mem_cons_self _ _)
        · rw [if_neg hs]
          exact List.mem_cons_self _ _
      · exact List.mem_cons_of_mem _ (List.mem_cons_of_mem _ h)

theorem selectBestSubset_mem (x : List (Formula × Int)) (xs : List (List (Formula × Int))) :
    selectBestSubset (x :: xs) ∈ x :: xs :=
  foldl_best_mem xs x

theorem mem_maximal_sublist {bb : List (Formula × Int)} {F : Formula}
    {s : List (Formula × Int)} (h : s ∈ maximalNonEntailingSubsets bb F) :
    s.Sublist bb := by
  have h1 : s ∈ nonEntailingSubsets bb F := (List.mem_filter.mp h).1
  have h2 : s ∈ allSubsets bb := (List.mem_filter.mp h1).1
  obtain ⟨i, _, heq⟩ := List.mem_map.mp h2
  exact heq ▸ maskSelect_sublist i bb

theorem contract_result_mem {bb : List (Formula × Int)} {F : Formula}
    (h1 : ¬ entails bb F = false) (h2 : maximalNonEntailingSubsets bb F ≠ []) :
    contract bb F ∈ maximalNonEntailingSubsets bb F := by
  rw [contract, if_neg h1, if_neg h2]
  cases hm : maximalNonEntailingSubsets bb F with
  | nil => exact absurd hm h2
  | cons x xs => exact selectBestSubset_mem x xs

/-- C6: contraction vacuity: when the belief base does not entail the
formula, `contract` returns with the belief collection untouched — the
same entries with the same priorities. -/
theorem contract_vacuity (bb : List (Formula × Int)) (F : Formula)
    (h : entails bb F = false) : contract bb F = bb := by
  rw [contract, if_pos h]

/-- Witness for C6: contracting an unentailed atom on the empty belief
base is a no-op. -/
theorem contract_vacuity_witness :
    entails ([] : List (Formula × Int)) (Formula.atom "p") = false ∧
      contract ([] : List (Formula × Int)) (Formula.atom "p") = [] :=
  ⟨by decide, contract_vacuity [] (Formula.atom "p") (by decide)⟩

/-- C10: contraction never alters priorities: the belief collection after
`contract` is a sublist of the collection before, so every surviving entry
is the very `(formula, priority)` pair it was before the call — contract
removes whole entries and never rewrites a surviving priority. -/
theorem contract_sublist (bb : List (Formula × Int)) (F : Formula) :
    (contract bb F).Sublist bb := by
  by_cases h1 : entails bb F = false
  · rw [contract_vacuity bb F h1]
  · by_cases h2 : maximalNonEntailingSubsets bb F = []
    · rw [contract, if_neg h1, if_pos h2]
    · exact mem_maximal_sublist (contract_result_mem h1 h2)

theorem foldl_best_spec :
    ∀ (xs : List (List (Formula × Int))) (x : List (Formula × Int)),
      ∃ pre post,
        x :: xs = pre ++ (xs.foldl (fun best t => if score t > score best then t else best) x)
            :: post ∧
        (∀ t ∈ pre,
          score t < score (xs.foldl (fun best t => if score t > score best then t else best) x)) ∧
        (∀ t ∈ x :: xs,
          score t ≤ score (xs.foldl (fun best t => if score t > score best then t else best) x)) := by
  intro xs
  induction xs with
  | nil =>
      intro x
      exact ⟨[], [], rfl, by simp, by simp⟩
  | cons y ys ih =>
      intro x
      rw [List.foldl_cons]
      by_cases hs : score y > score x
      · rw [if_pos hs]
        obtain ⟨pre, post, hdec, hstrict, hle⟩ := ih y
        refine ⟨x :: pre, post, ?_, ?_, ?_⟩
        · rw [List.cons_append, ← hdec]
        · intro t ht
          rcases List.mem_cons.mp ht with h | h
          · exact h ▸ lt_of_lt_of_le hs (hle y (List.mem_cons_self _ _))
          · exact hstrict t h
        · intro t ht
          rcases List.mem_cons.mp ht with h | h
          · exact le_of_lt (h ▸ lt_of_lt_of_le hs (hle y (List.mem_cons_self _ _)))
          · exact hle t h
      · rw [if_neg hs]
        push_neg at hs
        obtain ⟨pre, post, hdec, hstrict, hle⟩ := ih x
        cases pre with
        | nil =>
            rw [List.nil_append] at hdec
            have hx : ys.foldl (fun best t => if score t > score best then t else best) x = x := by
              injection hdec with hh1 hh2
              exact hh1.symm
            refine ⟨[], y :: ys, ?_, by simp, ?_⟩
            · rw [List.nil_append, hx]
            · intro t ht
              rcases List.mem_cons.mp ht with h | h
              · rw [h, hx]
              · rcases List.mem_cons.mp h with h2 | h2
                · rw [h2, hx]
                  exact hs
                · exact hle t (List.mem_cons_of_mem _ h2)
        | cons a pre2 =>
            rw [List.cons_append] at hdec
            have ha : a = x ∧ ys = pre2 ++
                (ys.foldl (fun best t => if score t > score best then t else best) x) :: post := by
              have := List.cons.injEq x ys a
                (pre2 ++ (ys.foldl (fun best t => if score t > score best then t else best) x) :: post)
              rw [this] at hdec
              exact ⟨hdec.1.symm, hdec.2⟩
            have hxpre : x ∈ a :: pre2 := ha.1 ▸ List.mem_cons_self _ _
            have hxlt := hstrict x hxpre
            refine ⟨x :: y :: pre2, post, ?_, ?_, ?_⟩
            · rw [List.cons_append, List.cons_append, ← ha.2]
            · intro t ht
              rcases List.mem_cons.mp ht with h | h
              · exact h ▸ hxlt
              · rcases List.mem_cons.mp h with h2 | h2
                · exact h2 ▸ lt_of_le_of_lt hs hxlt
                · exact hstrict t (ha.1 ▸ List.mem_cons_of_mem _ h2)
            · intro t ht
              rcases List.mem_cons.mp ht with h | h
              · rw [h]
                exact le_of_lt hxlt
              · rcases List.mem_cons.mp h with h2 | h2
                · rw [h2]
                  exact le_of_lt (lt_of_le_of_lt hs hxlt)
                · exact hle t (List.mem_cons_of_mem _ h2)

/-- C9: contraction selection is deterministic: `contract` is a pure
function of the belief list and the formula, so equal contents give equal
results; moreover, when contraction replaces the base (the formula is
entailed and a maximal non-entailing subset exists), the chosen subset is
an element of the maximal-subset list with the highest priority-sum score,
and on score ties it is the first such subset in enumeration order (every
subset listed before it scores strictly lower). -/
theorem contract_selection_deterministic (bb : List (Formula × Int)) (F : Formula)
    (h1 : entails bb F = true) (h2 : maximalNonEntailingSubsets bb F ≠ []) :
    ∃ pre post,
      maximalNonEntailingSubsets bb F = pre ++ (contract bb F) :: post ∧
      (∀ t ∈ pre, score t < score (contract bb F)) ∧
      (∀ t ∈ maximalNonEntailingSubsets bb F, score t ≤ score (contract bb F)) := by
  have h1n : ¬ entails bb F = false := by rw [h1]; simp
  cases hm : maximalNonEntailingSubsets bb F with
  | nil => exact absurd hm h2
  | cons x xs =>
      have hc : contract bb F
          = xs.foldl (fun best t => if score t > score best then t else best) x := by
        rw [contract, if_neg h1n, if_neg h2, hm]
        rfl
      rw [hc]
      exact foldl_best_spec xs x

/-- Witness for C9 at the spec's concrete contraction scenario. -/
theorem contract_selection_deterministic_witness :
    entails exampleBase (Formula.atom "q") = true ∧
      maximalNonEntailingSubsets exampleBase (Formula.atom "q") ≠ [] ∧
      (∃ pre post,
        maximalNonEntailingSubsets exampleBase (Formula.atom "q")
          = pre ++ (contract exampleBase (Formula.atom "q")) :: post ∧
        (∀ t ∈ pre, score t < score (contract exampleBase (Formula.atom "q"))) ∧
        (∀ t ∈ maximalNonEntailingSubsets exampleBase (Formula.atom "q"),
          score t ≤ score (contract exampleBase (Formula.atom "q")))) :=
  ⟨by decide, by decide,
    contract_selection_deterministic exampleBase (Formula.atom "q") (by decide) (by decide)⟩

/-- C4: the concrete contraction scenario: from `p → q` (priority 2) and
`p` (priority 1) the base entails `q`; contracting `q` finds exactly the
maximal non-entailing subsets `[p → q]` (score 2) and `[p]` (score 1) in
that enumeration order, keeps the higher-scoring `[p → q]`, and afterwards
`q` is no longer entailed. -/
theorem contract_scenario :
    entails exampleBase (Formula.atom "q") = true ∧
      maximalNonEntailingSubsets exampleBase (Formula.atom "q")
        = [[(Formula.implication (Formula.atom "p") (Formula.atom "q"), 2)],
           [(Formula.atom "p", 1)]] ∧
      score [(Formula.implication (Formula.atom "p") (Formula.atom "q"), 2)] = 2 ∧
      score [(Formula.atom "p", 1)] = 1 ∧
      contract exampleBase (Formula.atom "q")
        = [(Formula.implication (Formula.atom "p") (Formula.atom "q"), 2)] ∧
      entails (contract exampleBase (Formula.atom "q")) (Formula.atom "q") = false := by
  decide

theorem distribute_nonempty {A B : CNF} (hA : ∀ c ∈ A, c ≠ (∅ : Clause)) :
    ∀ c ∈ distribute A B, c ≠ (∅ : Clause) := by
  intro c hc he
  obtain ⟨⟨c1, hc1, c2, hc2, hu⟩, _⟩ := mem_distribute.mp hc
  apply hA c1 hc1
  have hsub : c1 ⊆ c := hu ▸ Finset.subset_union_left
  rw [he] at hsub
  exact Finset.subset_empty.mp hsub

theorem toCnfPair_nonempty (f : Formula) :
    (∀ c ∈ (toCnfPair f).1, c ≠ (∅ : Clause)) ∧
      (∀ c ∈ (toCnfPair f).2, c ≠ (∅ : Clause)) := by
  induction f with
  | atom n =>
      constructor <;>
        · intro c hc
          simp only [toCnfPair, Finset.mem_singleton] at hc
          subst hc
          exact Finset.singleton_ne_empty _
  | negation f ih => exact ⟨ih.2, ih.1⟩
  | conjunction a b iha ihb =>
      refine ⟨?_, distribute_nonempty iha.2⟩
      intro c hc
      rcases Finset.mem_union.mp hc with h | h
      · exact iha.1 c h
      · exact ihb.1 c h
  | disjunction a b iha ihb =>
      refine ⟨distribute_nonempty iha.1, ?_⟩
      intro c hc
      rcases Finset.mem_union.mp hc with h | h
      · exact iha.2 c h
      · exact ihb.2 c h
  | implication a b iha ihb =>
      refine ⟨distribute_nonempty iha.2, ?_⟩
      intro c hc
      rcases Finset.mem_union.mp hc with h | h
      · exact iha.1 c h
      · exact ihb.2 c h
  | biconditional a b iha ihb =>
      refine ⟨?_, ?_⟩
      · intro c hc
        rcases Finset.mem_union.mp hc with h | h
        · exact distribute_nonempty iha.2 c h
        · exact distribute_nonempty ihb.2 c h
      · apply distribute_nonempty
        intro c hc
        rcases Finset.mem_union.mp hc with h | h
        · exact iha.1 c h
        · exact ihb.2 c h

theorem clausesOf_nil : clausesOf [] = (∅ : Finset Clause) := rfl

theorem clausesOf_cons (p : Formula × Int) (l : List (Formula × Int)) :
    clausesOf (p :: l) = p.1.to_cnf ∪ clausesOf l := rfl

theorem mem_clausesOf {bb : List (Formula × Int)} {c : Clause} :
    c ∈ clausesOf bb ↔ ∃ fp ∈ bb, c ∈ fp.1.to_cnf := by
  induction bb with
  | nil => simp [clausesOf_nil]
  | cons p l ih => simp [clausesOf_cons, Finset.mem_union, ih]

theorem entails_no_empty_clause (s : List (Formula × Int)) (F : Formula) :
    (∅ : Clause) ∉ clausesOf s ∪ (Formula.negation F).to_cnf := by
  intro h
  rcases Finset.mem_union.mp h with h | h
  · obtain ⟨fp, _, hc⟩ := mem_clausesOf.mp h
    exact (toCnfPair_nonempty fp.1).1 _ hc rfl
  · exact (toCnfPair_nonempty (Formula.negation F)).1 _ h rfl

theorem entails_eq_false_of_satisfiable {s : List (Formula × Int)} {F : Formula}
    (hsat : satisfiable (clausesOf s ∪ (Formula.negation F).to_cnf)) :
    entails s F = false := by
  cases h : entails s F
  · rfl
  · rw [entails] at h
    exact absurd hsat ((resolution_correct _ (entails_no_empty_clause s F)).mp h)

theorem entails_nil_eq_false {F : Formula} (hnt : ∃ v, ¬ F.holds v) :
    entails [] F = false := by
  obtain ⟨v, hv⟩ := hnt
  apply entails_eq_false_of_satisfiable
  refine ⟨v, ?_⟩
  intro c hc
  rcases Finset.mem_union.mp hc with h | h
  · rw [clausesOf_nil] at h
    exact absurd h (Finset.not_mem_empty c)
  · exact (to_cnf_sound (Formula.negation F) v).mpr hv c h

theorem maskSelect_zero (l : List (Formula × Int)) : maskSelect 0 l = [] := by
  simp [maskSelect, Nat.zero_testBit]

theorem nil_mem_nonEntailing {bb : List (Formula × Int)} {F : Formula}
    (h : entails [] F = false) :
    ([] : List (Formula × Int)) ∈ nonEntailingSubsets bb F := by
  rw [nonEntailingSubsets, List.mem_filter]
  constructor
  · rw [allSubsets, List.mem_map]
    exact ⟨0, List.mem_range.mpr (Nat.pos_pow_of_pos _ (by norm_num)), maskSelect_zero bb⟩
  · rw [h]
    rfl

theorem mem_nonEntailing_sublist {bb : List (Formula × Int)} {F : Formula}
    {s : List (Formula × Int)} (h : s ∈ nonEntailingSubsets bb F) :
    s.Sublist bb := by
  have h2 : s ∈ allSubsets bb := (List.mem_filter.mp h).1
  obtain ⟨i, _, heq⟩ := List.mem_map.mp h2
  exact heq ▸ maskSelect_sublist i bb

theorem pairwise_feq_unique {bb : List (Formula × Int)}
    (hkeys : bb.Pairwise (fun p q => feq p.1 q.1 = false)) :
    ∀ {p q : Formula × Int}, p ∈ bb → q ∈ bb → feq p.1 q.1 = true → p = q := by
  induction bb with
  | nil =>
      intro p q hp _ _
      exact absurd hp (List.not_mem_nil p)
  | cons a l ih =>
      rw [List.pairwise_cons] at hkeys
      intro p q hp hq hfeq
      rcases List.mem_cons.mp hp with hp1 | hp1 <;> rcases List.mem_cons.mp hq with hq1 | hq1
      · rw [hp1, hq1]
      · subst hp1
        have hfalse := hkeys.1 q hq1
        rw [hfeq] at hfalse
        simp at hfalse
      · subst hq1
        have hfalse := hkeys.1 p hp1
        rw [feq_symm] at hfeq
        rw [hfeq] at hfalse
        simp at hfalse
      · exact ih hkeys.2 hp1 hq1 hfeq

theorem nodup_of_pairwise_feq {bb : List (Formula × Int)}
    (hkeys : bb.Pairwise (fun p q => feq p.1 q.1 = false)) : bb.Nodup := by
  refine hkeys.imp ?_
  intro p q h he
  rw [he, feq_refl] at h
  simp at h

theorem keysSubsetFeq_subset {bb s1 s2 : List (Formula × Int)}
    (hkeys : bb.Pairwise (fun p q => feq p.1 q.1 = false))
    (h1 : s1.Sublist bb) (h2 : s2.Sublist bb)
    (hsub : keysSubsetFeq s1 s2 = true) : s1 ⊆ s2 := by
  intro p hp
  rw [keysSubsetFeq, List.all_eq_true] at hsub
  obtain ⟨q, hq, hfe⟩ := List.any_eq_true.mp (hsub p hp)
  have heq := pairwise_feq_unique hkeys (h1.subset hp) (h2.subset hq) hfe
  rw [heq]
  exact hq

theorem dictEq_of_perm {s1 s2 : List (Formula × Int)} (h : s1.Perm s2) :
    dictEq s1 s2 = true := by
  rw [dictEq, Bool.and_eq_true, List.all_eq_true, List.all_eq_true]
  constructor
  · intro p hp
    exact List.any_eq_true.mpr ⟨p, h.mem_iff.mp hp, by simp [feq_refl]⟩
  · intro q hq
    exact List.any_eq_true.mpr ⟨q, h.mem_iff.mpr hq, by simp [feq_refl]⟩

theorem exists_max_length :
    ∀ (L : List (List (Formula × Int))), L ≠ [] →
      ∃ x ∈ L, ∀ y ∈ L, y.length ≤ x.length := by
  intro L
  induction L with
  | nil => intro h; exact absurd rfl h
  | cons a l ih =>
      intro _
      by_cases hl : l = []
      · subst hl
        refine ⟨a, List.mem_singleton_self a, ?_⟩
        intro y hy
        rw [List.mem_singleton.mp hy]
      · obtain ⟨x, hx, hmax⟩ := ih hl
        by_cases hax : x.length ≤ a.length
        · refine ⟨a, List.mem_cons_self a l, ?_⟩
          intro y hy
          rcases List.mem_cons.mp hy with h | h
          · rw [h]
          · exact (hmax y h).trans hax
        · push_neg at hax
          refine ⟨x, List.mem_cons_of_mem _ hx, ?_⟩
          intro y hy
          rcases List.mem_cons.mp hy with h | h
          · rw [h]
            exact le_of_lt hax
          · exact hmax y h

theorem maximal_nonempty {bb : List (Formula × Int)} {F : Formula}
    (hkeys : bb.Pairwise (fun p q => feq p.1 q.1 = false))
    (hne : nonEntailingSubsets bb F ≠ []) :
    maximalNonEntailingSubsets bb F ≠ [] := by
  obtain ⟨s, hs, hmax⟩ := exists_max_length _ hne
  intro hempty
  have hnotmem : s ∉ maximalNonEntailingSubsets bb F := by
    rw [hempty]
    exact List.not_mem_nil s
  rw [maximalNonEntailingSubsets, List.mem_filter] at hnotmem
  push_neg at hnotmem
  have hfail := hnotmem hs
  have hany : ((nonEntailingSubsets bb F).any fun s2 => !dictEq s s2 && keysSubsetFeq s s2)
      = true := by
    cases h : ((nonEntailingSubsets bb F).any fun s2 => !dictEq s s2 && keysSubsetFeq s s2)
    · exact absurd (by rw [h]; rfl) hfail
    · rfl
  obtain ⟨s2, hs2, hdom⟩ := List.any_eq_true.mp hany
  rw [Bool.and_eq_true, Bool.not_eq_true'] at hdom
  obtain ⟨hd1, hd2⟩ := hdom
  have hsubl1 : s.Sublist bb := mem_nonEntailing_sublist hs
  have hsubl2 : s2.Sublist bb := mem_nonEntailing_sublist hs2
  have hsub : s ⊆ s2 := keysSubsetFeq_subset hkeys hsubl1 hsubl2 hd2
  have hnd : s.Nodup := (nodup_of_pairwise_feq hkeys).sublist hsubl1
  have hsp : s.Subperm s2 := List.subperm_of_subset hnd hsub
  have hperm : s.Perm s2 := hsp.perm_of_length_le (hmax s2 hs2)
  have hdeq := dictEq_of_perm hperm
  rw [hd1] at hdeq
  simp at hdeq

/-- C3: contraction success: for every belief base with dict-distinct keys
(no two entries with `__eq__`-equal formulas, the invariant every Python
dict guarantees) and every formula that is not a tautology, after
`contract` the formula is no longer entailed. -/
theorem contract_success (bb : List (Formula × Int)) (F : Formula)
    (hkeys : bb.Pairwise (fun p q => feq p.1 q.1 = false))
    (hnt : ∃ v, ¬ F.holds v) :
    entails (contract bb F) F = false := by
  by_cases h1 : entails bb F = false
  · rw [contract_vacuity bb F h1]
    exact h1
  · have hnil : ([] : List (Formula × Int)) ∈ nonEntailingSubsets bb F :=
      nil_mem_nonEntailing (entails_nil_eq_false hnt)
    have hnonempty : nonEntailingSubsets bb F ≠ [] := by
      intro h
      rw [h] at hnil
      exact List.not_mem_nil _ hnil
    have h2 := maximal_nonempty hkeys hnonempty
    have hmem := contract_result_mem h1 h2
    have hne2 : contract bb F ∈ nonEntailingSubsets bb F := (List.mem_filter.mp hmem).1
    have hflag := (List.mem_filter.mp hne2).2
    rwa [Bool.not_eq_true'] at hflag

/-- Witness for C3 at the concrete scenario base and the non-tautological
query `q`. -/
theorem contract_success_witness :
    exampleBase.Pairwise (fun p q => feq p.1 q.1 = false) ∧
      (∃ v, ¬ (Formula.atom "q").holds v) ∧
      entails (contract exampleBase (Formula.atom "q")) (Formula.atom "q") = false :=
  ⟨by decide, ⟨fun _ => false, by decide⟩,
    contract_success exampleBase (Formula.atom "q") (by decide) ⟨fun _ => false, by decide⟩⟩

end BeliefRevision
